import Mathlib

/-!
Verification of the healthchecks core (`hc/api/models.py`, `hc/lib/s3.py`)
against its natural-language specification.

The Python code is shallowly embedded: pure functions become Lean functions,
database rows become records, stateful operations become explicit state
passing, and code paths that raise exceptions return `Except`.  Timestamps
are modelled as integers (epoch seconds); the token-bucket float arithmetic
is modelled over `ℚ` (exact rational arithmetic; concrete counterexample
inputs are chosen to be exactly representable in binary floating point, so
they evaluate identically in Python).
-/

namespace HC

/-! ### ObjectKeyCodec: `enc` from `hc/lib/s3.py`

`enc(n)` builds the string `chr(ASCII_Z - len(s) + 1) + inverted + "-" + s`
where `s = str(n)` and each character of `inverted` is `chr(ASCII_J - int(c))`.
We embed strings as lists of code points (integers); Python compares strings
lexicographically by code point, with a proper prefix sorting first, which is
exactly `List.Lex (· < ·)`. -/

/-- Big-endian decimal digit list of `n`, mirroring Python's `str(n)`
(`str(0) = "0"`, a single digit). -/
def strDigits (n : Nat) : List Nat :=
  if n = 0 then [0] else (Nat.digits 10 n).reverse

/-- `enc` from `hc/lib/s3.py` (lines 38-61), as the list of code points of the
produced string.  `ASCII_Z = 122`, `ASCII_J = 106`, `'-' = 45`, `'0' = 48`.
The length character is `chr(122 - len + 1)`; code points are kept in `ℤ`
(Python's `chr` accepts the value whenever `n < 10^123`, which covers every
key the program can produce). -/
def enc (n : Nat) : List Int :=
  (123 - ((strDigits n).length : Int))
    :: (strDigits n).map (fun d : Nat => (106 : Int) - (d : Int))
    ++ (45 : Int) :: (strDigits n).map (fun d : Nat => (48 : Int) + (d : Int))

/-- Python string `<` on the embedded keys: lexicographic by code point,
a proper prefix sorts first. -/
def encLt (a b : List Int) : Prop := List.Lex (· < ·) a b

instance (a b : List Int) : Decidable (encLt a b) :=
  List.Lex.decidableRel (· < ·) a b

/-- Numeric value of a big-endian decimal digit list. -/
def valBE : List Nat → Nat
  | [] => 0
  | d :: t => d * 10 ^ t.length + valBE t

/-! ### TokenBucketLimiter: `TokenBucket.authorize` (models.py lines 930-956)

Per-key state; float arithmetic modelled over `ℚ`. -/

/-- One `TokenBucket` row: `tokens = models.FloatField(default=1.0)`,
`updated = models.DateTimeField(default=now)` (epoch seconds). -/
structure Bucket where
  tokens : ℚ
  updated : ℚ
deriving DecidableEq, Repr

/-- The top-up an `authorize` call applies to an existing row:
`obj.tokens = min(1.0, obj.tokens + delta_secs / refill_time_secs)`. -/
def refill (b : Bucket) (refillTimeSecs tnow : ℚ) : ℚ :=
  min 1 (b.tokens + (tnow - b.updated) / refillTimeSecs)

/-- `TokenBucket.authorize(value, capacity, refill_time_secs)` for one key.
`store` is the row for the key (`none` = absent; `get_or_create` then inserts
a fresh row with the defaults `tokens = 1.0`, `updated = now()`).  Returns
the boolean outcome together with the row as persisted after the call: on
rejection `obj.save()` is never reached, so the row keeps exactly the state
it had after `get_or_create`.

Caveat of the exact-rational model of the `FloatField` arithmetic: it
reproduces the program's IEEE-double execution bit for bit only when every
quantity on the evaluated path is a dyadic rational of at most 53
significant bits (true of all concrete inputs below and of power-of-two
capacities up to `2^52`).  For other capacities the double rounding of
`1.0 / capacity` makes the float program diverge from `ℚ`: e.g. at
`capacity = 20` (used by the login/invite policies) the accumulated debit
error makes the 20th same-instant call compute `-3.19e-16 < 0` and be
rejected, so only 19 calls are permitted.  Theorems about exact call counts
are therefore stated only for capacities where the two executions coincide;
control-flow facts (what is returned and what is persisted, given the sign
of the computed balance) hold for the float program regardless. -/
def authorize (store : Option Bucket) (capacity refillTimeSecs tnow : ℚ) :
    Bool × Bucket :=
  let stored : Bucket := store.getD { tokens := 1, updated := tnow }
  let refilled : ℚ :=
    match store with
    | none => stored.tokens        -- `created`: skip the top-up
    | some b => refill b refillTimeSecs tnow
  let newTokens := refilled - 1 / capacity
  if newTokens < 0 then (false, stored)
  else (true, { tokens := newTokens, updated := tnow })

/-- `k` successive `authorize` calls for one key at the same instant,
starting from row state `store`; returns the call outcomes in order and the
final stored row state. -/
def repeatAuth (capacity refillTimeSecs tnow : ℚ) :
    Nat → Option Bucket → List Bool × Option Bucket
  | 0, store => ([], store)
  | k + 1, store =>
      let r := authorize store capacity refillTimeSecs tnow
      let rest := repeatAuth capacity refillTimeSecs tnow k (some r.2)
      (r.1 :: rest.1, rest.2)

/-! ### Check, Ping, Flip, Notification (models.py)

Timestamps and durations are epoch seconds (`ℤ`).  The cron-schedule
computation (`CronSim(self.schedule, last_local)`, an external library) is a
parameter `cronNext : ℤ → ℤ` giving the next scheduled occurrence strictly
after a given instant for the check's schedule and timezone. -/

/-- Check / flip status strings (`STATUSES` plus the two extra values
`get_status` can report). -/
inductive St
  | new | up | down | paused | grace | started
deriving DecidableEq, Repr

/-- `CHECK_KINDS`. -/
inductive CheckKind
  | simple | cron
deriving DecidableEq, Repr

/-- The ping actions: `"start"`, `"ign"`, `"fail"`, and the empty string
(success).  `Check.ping` treats anything that is not `start`/`ign`/`fail` as
success. -/
inductive Action
  | start | ign | fail | success
deriving DecidableEq, Repr

/-- `NEVER = datetime(3000, 1, 1, tzinfo=timezone.utc)` as epoch seconds. -/
def NEVER : Int := 32503680000

/-- The `Check` columns the core state machine reads and writes. -/
structure Check where
  kind : CheckKind
  timeout : Int
  grace : Int
  manualResume : Bool
  nPings : Nat
  lastPing : Option Int
  lastStart : Option Int
  lastDuration : Option Int
  alertAfter : Option Int
  status : St
deriving DecidableEq, Repr

/-- `Check.get_grace_start` (models.py lines 159-183).  `.error ()` models
the `TypeError`/`AttributeError` Python raises when `last_ping` is `None`
but the arithmetic on it is reached. -/
def get_grace_start (cronNext : Int → Int) (c : Check) (withStarted : Bool) :
    Except Unit (Option Int) :=
  let result₀ : Except Unit Int :=
    if c.kind = .simple ∧ c.status = .up then
      match c.lastPing with
      | some lp => .ok (lp + c.timeout)
      | none => .error ()
    else if c.kind = .cron ∧ c.status = .up then
      match c.lastPing with
      | some lp => .ok (cronNext lp)
      | none => .error ()
    else
      .ok NEVER
  match result₀ with
  | .error e => .error e
  | .ok r₀ =>
      let result :=
        match c.lastStart with
        | some ls => if withStarted ∧ c.status ≠ .down then min r₀ ls else r₀
        | none => r₀
      .ok (if result ≠ NEVER then some result else none)

/-- `Check.going_down_after` (models.py lines 185-195). -/
def going_down_after (cronNext : Int → Int) (c : Check) :
    Except Unit (Option Int) :=
  match get_grace_start cronNext c true with
  | .error e => .error e
  | .ok (some gs) => .ok (some (gs + c.grace))
  | .ok none => .ok none

/-- The part of `Check.get_status` after the `last_start` block (models.py
lines 208-219): the fall-through continuation shared by both branches of the
`if self.last_start:` test. -/
def get_status_tail (cronNext : Int → Int) (c : Check) (withStarted : Bool)
    (frozenNow : Int) : Except Unit St :=
  if c.status = .new ∨ c.status = .paused ∨ c.status = .down then
    .ok c.status
  else
    match get_grace_start cronNext c withStarted with
    | .error e => .error e
    | .ok none => .error ()        -- `None + self.grace` raises `TypeError`
    | .ok (some gs) =>
        if frozenNow ≥ gs + c.grace then .ok .down
        else if frozenNow ≥ gs then .ok .grace
        else .ok .up

/-- `Check.get_status` (models.py lines 197-219). -/
def get_status (cronNext : Int → Int) (c : Check) (withStarted : Bool)
    (frozenNow : Int) : Except Unit St :=
  match c.lastStart with
  | some ls =>
      if frozenNow ≥ ls + c.grace then .ok .down
      else if withStarted then .ok .started
      else get_status_tail cronNext c withStarted frozenNow
  | none => get_status_tail cronNext c withStarted frozenNow

/-- `Ping` columns relevant to ingestion; the payload is tracked by its
length only (inline `body_raw` vs archived `object_size`, never both). -/
structure PingRec where
  n : Nat
  created : Int
  kind : Action
  objectSize : Option Nat
  bodyRaw : Option Nat
deriving DecidableEq, Repr

/-- `Flip` columns written by ingestion. -/
structure FlipRec where
  created : Int
  oldStatus : St
  newStatus : St
deriving DecidableEq, Repr

/-- One persisted row write performed by `Check.ping`, in program order. -/
inductive Event
  | saveFlip (f : FlipRec)
  | saveCheck (c : Check)
  | savePing (p : PingRec)
deriving DecidableEq, Repr

/-- The database state for one check: its row, its `Ping` rows in insertion
(`id`) order, its `Flip` rows, its `Notification` rows (their `created`
timestamps), and its archived object keys (sequence numbers). -/
structure DB where
  check : Check
  pings : List PingRec
  flips : List FlipRec
  notifications : List Int
  archive : List Nat
deriving DecidableEq, Repr

/-- `_remove_objects` / `remove_objects` (`hc/lib/s3.py` lines 91-110): list
the keys strictly after `enc(upto_n + 1)` in the externally sorted listing
and delete them.  When `upto_n + 1 < 0`, `enc` raises (`int('-')`) inside the
background thread before anything is deleted, so the archive is untouched. -/
def removeObjects (uptoN : Int) (archive : List Nat) : List Nat :=
  if 0 ≤ uptoN + 1 then
    archive.filter fun m => decide (¬ encLt (enc (uptoN + 1).toNat) (enc m))
  else
    archive

/-- `Check.prune` (models.py lines 340-356); `pingLogLimit` is
`self.project.owner_profile.ping_log_limit` and `s3Configured` is
`settings.S3_BUCKET`. -/
def prune (s3Configured : Bool) (pingLogLimit : Nat) (db : DB) : DB :=
  let threshold : Int := (db.check.nPings : Int) - (pingLogLimit : Int)
  let archive :=
    if s3Configured then removeObjects threshold db.archive else db.archive
  let pings := db.pings.filter fun p => decide (¬ (p.n : Int) ≤ threshold)
  let notifications :=
    match pings.head? with     -- `self.ping_set.earliest("id")`
    | some p => db.notifications.filter fun created => decide (¬ created < p.created)
    | none => db.notifications -- `Ping.DoesNotExist`: leave notifications alone
  { db with archive := archive, pings := pings, notifications := notifications }

/-- The `action = "ign"` override: `paused` checks with `manual_resume` do
not auto-resume (models.py lines 285-286). -/
def effectiveAction (c : Check) (action : Action) : Action :=
  if c.status = .paused ∧ c.manualResume then .ign else action

/-- The `if action == "start" / elif "ign" / else` block of `Check.ping`
(models.py lines 288-309): updates the check's fields and, when the status
changes, builds the `Flip` row that is saved before `self.status` is
assigned. -/
def applyAction (c : Check) (action : Action) (frozenNow : Int) :
    Check × Option FlipRec :=
  match action with
  | .start => ({ c with lastStart := some frozenNow }, none)
  | .ign => (c, none)
  | _ =>
      let c := { c with lastPing := some frozenNow }
      let c :=
        match c.lastStart with
        | some ls =>
            { c with lastDuration := some (frozenNow - ls), lastStart := none }
        | none => { c with lastDuration := none }
      let newStatus := if action = .fail then St.down else St.up
      if c.status ≠ newStatus then
        ({ c with status := newStatus },
          some { created := frozenNow, oldStatus := c.status, newStatus := newStatus })
      else
        (c, none)

/-- Result of one `Check.ping` call: the database afterwards, the flip it
created (if any), the row writes in program order, and whether the
every-100th-ping pruning ran. -/
structure PingOutcome where
  db : DB
  flip : Option FlipRec
  events : List Event
  didPrune : Bool
deriving DecidableEq, Repr

/-- `Check.ping` (models.py lines 282-338).  `bodyLen = len(body)`;
`n_pings` uses the atomic `F("n_pings") + 1` increment, modelled as `+ 1`
under per-check serialization.  The event list records `flip.save()`,
`self.save()`, `ping.save()` in program order. -/
def ping (cronNext : Int → Int) (s3Configured : Bool) (pingLogLimit : Nat)
    (db : DB) (action₀ : Action) (bodyLen : Nat) (frozenNow : Int) :
    Except Unit PingOutcome :=
  let action := effectiveAction db.check action₀
  let c := (applyAction db.check action frozenNow).1
  let flip := (applyAction db.check action frozenNow).2
  match going_down_after cronNext c with
  | .error e => .error e
  | .ok alertAfter =>
      let c := { c with alertAfter := alertAfter, nPings := c.nPings + 1 }
      let archived := bodyLen > 100 ∧ s3Configured
      let p : PingRec :=
        { n := c.nPings
          created := frozenNow
          kind := action
          objectSize := if archived then some bodyLen else none
          bodyRaw := if archived then none else some bodyLen }
      let db' : DB :=
        { db with
          check := c
          flips := db.flips ++ flip.toList
          archive := if archived then db.archive ++ [p.n] else db.archive
          pings := db.pings ++ [p] }
      let events := (flip.map Event.saveFlip).toList
        ++ [Event.saveCheck c, Event.savePing p]
      let didPrune := c.nPings % 100 = 0
      let db'' := if didPrune then prune s3Configured pingLogLimit db' else db'
      .ok { db := db'', flip := flip, events := events, didPrune := didPrune }

/-! ### Channel, Notification, FlipAlerter (models.py lines 451-927) -/

/-- The `Channel` columns `Channel.notify` reads or writes, plus a few
untouched ones used to state that the row update is targeted. -/
structure ChannelRec where
  kind : String
  value : String
  emailVerified : Bool
  disabled : Option Bool
  lastNotify : Option Int
  lastError : String
deriving DecidableEq, Repr

/-- Outcome of `self.transport.notify(check, notification=n)`: success, or a
raised `transports.TransportError{message, permanent}`. -/
inductive TransportResult
  | ok
  | err (message : String) (permanent : Bool)
deriving DecidableEq, Repr

/-- The `Notification` columns `Channel.notify` writes. -/
structure NotificationRec where
  checkStatus : St
  error : String
deriving DecidableEq, Repr

/-- The exact field set of the targeted update
`Channel.objects.filter(id=self.id).update(last_notify=..., last_error=...,
disabled=...)`. -/
structure ChannelUpdate where
  lastNotify : Int
  lastError : String
  disabled : Option Bool
deriving DecidableEq, Repr

/-- Applying the targeted update: writes exactly the three columns named in
the `update(...)` call and nothing else. -/
def applyChannelUpdate (ch : ChannelRec) (u : ChannelUpdate) : ChannelRec :=
  { ch with
    lastNotify := some u.lastNotify
    lastError := u.lastError
    disabled := u.disabled }

/-- Result of one `Channel.notify` call: the returned string, the final
`Notification` row (`none` when the transport is a no-op and no row is
created), and the targeted `Channel` row update that was issued. -/
structure NotifyResult where
  returned : String
  notification : Option NotificationRec
  channelUpdate : Option ChannelUpdate
deriving DecidableEq, Repr

/-- `Channel.notify` (models.py lines 566-594).  `isNoop` is
`self.transport.is_noop(check)` and `tr` the transport call's outcome; both
belong to the external per-kind transport. -/
def notify (ch : ChannelRec) (checkStatus : St) (isNoop : Bool)
    (tr : TransportResult) (tnow : Int) : NotifyResult :=
  if isNoop then
    { returned := "no-op", notification := none, channelUpdate := none }
  else
    -- the row is first saved with error="Sending", then updated in place
    let pair : String × Option Bool :=
      match tr with
      | .ok => ("", ch.disabled)
      | .err msg perm => (msg, if perm then some true else ch.disabled)
    { returned := pair.1
      notification := some { checkStatus := checkStatus, error := pair.1 }
      channelUpdate :=
        some { lastNotify := tnow, lastError := pair.1, disabled := pair.2 } }

/-- `Flip.send_alerts` (models.py lines 905-927): the list of
`(channel, error)` outcomes, or `.error ()` when the transition's new status
is neither `up` nor `down` — that code path raises (it builds a
`NotImplementedError` whose message expression `self.status` is itself an
`AttributeError`, so either way the call dies with an exception instead of
silently ignoring the flip).  `notifyOutcome ch` abstracts
`channel.notify(self.owner)`; elapsed wall time is not modelled. -/
def send_alerts (flip : FlipRec) (channels : List ChannelRec)
    (notifyOutcome : ChannelRec → String) :
    Except Unit (List (ChannelRec × String)) :=
  if flip.newStatus = .up ∧ (flip.oldStatus = .new ∨ flip.oldStatus = .paused) then
    .ok []
  else if ¬ (flip.newStatus = .up ∨ flip.newStatus = .down) then
    .error ()
  else
    .ok (((channels.filter fun ch => decide (¬ ch.disabled = some true)).map
        fun ch => (ch, notifyOutcome ch)).filter fun r => decide (¬ r.2 = "no-op"))

theorem valBE_append_singleton (l : List Nat) (d : Nat) :
    valBE (l ++ [d]) = 10 * valBE l + d := by
  induction l with
  | nil => simp [valBE]
  | cons c t ih =>
      have hlen : (t ++ [d]).length = t.length + 1 := by simp
      simp only [List.cons_append, valBE, List.append_eq, hlen, ih, pow_succ]
      ring

theorem valBE_reverse (L : List Nat) : valBE L.reverse = Nat.ofDigits 10 L := by
  induction L with
  | nil => simp [valBE, Nat.ofDigits]
  | cons c t ih =>
      rw [List.reverse_cons, valBE_append_singleton, ih, Nat.ofDigits_cons]
      ring

theorem valBE_strDigits (n : Nat) : valBE (strDigits n) = n := by
  by_cases h : n = 0
  · subst h; simp [strDigits, valBE]
  · rw [strDigits, if_neg h, valBE_reverse, Nat.ofDigits_digits]

theorem strDigits_lt (n : Nat) : ∀ d ∈ strDigits n, d < 10 := by
  intro d hd
  by_cases h : n = 0
  · subst h; simp [strDigits] at hd; omega
  · rw [strDigits, if_neg h, List.mem_reverse] at hd
    exact Nat.digits_lt_base (by norm_num) hd

theorem strDigits_ne_nil (n : Nat) : strDigits n ≠ [] := by
  by_cases h : n = 0
  · subst h; simp [strDigits]
  · rw [strDigits, if_neg h]
    simp [Nat.digits_ne_nil_iff_ne_zero, h]

theorem valBE_lt_pow (l : List Nat) (h : ∀ d ∈ l, d < 10) :
    valBE l < 10 ^ l.length := by
  induction l with
  | nil => simp [valBE]
  | cons d t ih =>
      have hd : d < 10 := h d (List.mem_cons_self d t)
      have ht : valBE t < 10 ^ t.length := ih fun x hx => h x (List.mem_cons_of_mem _ hx)
      have : d * 10 ^ t.length + valBE t < (d + 1) * 10 ^ t.length := by nlinarith
      calc valBE (d :: t) = d * 10 ^ t.length + valBE t := rfl
        _ < (d + 1) * 10 ^ t.length := this
        _ ≤ 10 * 10 ^ t.length := by nlinarith
        _ = 10 ^ (d :: t).length := by rw [List.length_cons, pow_succ]; ring

theorem strDigits_length (n : Nat) :
    (strDigits n).length = if n = 0 then 1 else Nat.log 10 n + 1 := by
  by_cases h : n = 0
  · subst h; simp [strDigits]
  · rw [strDigits, if_neg h, if_neg h, List.length_reverse,
      Nat.digits_len 10 n (by norm_num) h]

theorem strDigits_length_mono {a b : Nat} (h : a ≤ b) :
    (strDigits a).length ≤ (strDigits b).length := by
  rw [strDigits_length, strDigits_length]
  by_cases ha : a = 0
  · by_cases hb : b = 0 <;> simp [ha, hb]
  · have hb : b ≠ 0 := by omega
    simp only [if_neg ha, if_neg hb]
    exact Nat.succ_le_succ (Nat.log_mono_right h)

theorem lex_of_valBE_lt :
    ∀ l₁ l₂ : List Nat, l₁.length = l₂.length →
      (∀ d ∈ l₂, d < 10) → valBE l₁ < valBE l₂ → List.Lex (· < ·) l₁ l₂
  | [], [], _, _, hv => absurd hv (by simp [valBE])
  | [], _ :: _, hlen, _, _ => by simp at hlen
  | _ :: _, [], hlen, _, _ => by simp at hlen
  | d₁ :: t₁, d₂ :: t₂, hlen, h₂, hv => by
      have hlen' : t₁.length = t₂.length := by simpa using hlen
      rcases Nat.lt_trichotomy d₁ d₂ with h | h | h
      · exact List.Lex.rel h
      · subst h
        refine List.Lex.cons (lex_of_valBE_lt t₁ t₂ hlen'
          (fun x hx => h₂ x (List.mem_cons_of_mem _ hx)) ?_)
        have : valBE (d₁ :: t₁) = d₁ * 10 ^ t₁.length + valBE t₁ := rfl
        have h2 : valBE (d₁ :: t₂) = d₁ * 10 ^ t₂.length + valBE t₂ := rfl
        rw [this, h2, hlen'] at hv
        omega
      · exfalso
        have hv₂ : valBE t₂ < 10 ^ t₂.length :=
          valBE_lt_pow t₂ fun x hx => h₂ x (List.mem_cons_of_mem _ hx)
        have e₁ : valBE (d₁ :: t₁) = d₁ * 10 ^ t₁.length + valBE t₁ := rfl
        have e₂ : valBE (d₂ :: t₂) = d₂ * 10 ^ t₂.length + valBE t₂ := rfl
        rw [e₁, e₂, hlen'] at hv
        nlinarith

/-- Mapping each digit through `d ↦ 106 - d` (the `chr(ASCII_J - int(c))`
inversion) reverses the lexicographic order of equal-length digit lists. -/
theorem lex_map_inv :
    ∀ l₁ l₂ : List Nat, l₁.length = l₂.length → List.Lex (· < ·) l₂ l₁ →
      List.Lex (· < ·) (l₁.map fun d : Nat => (106 : Int) - (d : Int))
        (l₂.map fun d : Nat => (106 : Int) - (d : Int))
  | [], [], _, h => nomatch h
  | [], _ :: _, hlen, _ => by simp at hlen
  | _ :: _, [], hlen, _ => by simp at hlen
  | d₁ :: t₁, d₂ :: t₂, hlen, h => by
      have hlen' : t₁.length = t₂.length := by simpa using hlen
      cases h with
      | rel hr =>
          refine List.Lex.rel ?_
          have hc : (d₂ : Int) < d₁ := by exact_mod_cast hr
          show (106 : Int) - d₁ < (106 : Int) - d₂
          omega
      | cons ht => exact List.Lex.cons (lex_map_inv t₁ t₂ hlen' ht)

/-- A strict lexicographic comparison of equal-length lists is decided before
the end of the lists, so arbitrary suffixes may be appended to both sides. -/
theorem lex_append_of_length_eq {α : Type} {r : α → α → Prop} :
    ∀ l₁ l₂ s₁ s₂ : List α, l₁.length = l₂.length →
      List.Lex r l₁ l₂ → List.Lex r (l₁ ++ s₁) (l₂ ++ s₂)
  | [], [], _, _, _, h => nomatch h
  | [], _ :: _, _, _, hlen, _ => by simp at hlen
  | _ :: _, [], _, _, _, h => nomatch h
  | d₁ :: t₁, d₂ :: t₂, s₁, s₂, hlen, h => by
      cases h with
      | rel hr => exact List.Lex.rel hr
      | cons ht =>
          exact List.Lex.cons
            (lex_append_of_length_eq t₁ t₂ s₁ s₂ (by simpa using hlen) ht)

theorem encLt_of_lt {a b : Nat} (h : b < a) : encLt (enc a) (enc b) := by
  unfold encLt enc
  rcases lt_or_eq_of_le (strDigits_length_mono (le_of_lt h)) with hl | hl
  · refine List.Lex.rel ?_
    have : ((strDigits b).length : Int) < (strDigits a).length := by exact_mod_cast hl
    omega
  · have hval : valBE (strDigits b) < valBE (strDigits a) := by
      rw [valBE_strDigits, valBE_strDigits]; exact h
    have hdig : List.Lex (· < ·) (strDigits b) (strDigits a) :=
      lex_of_valBE_lt _ _ hl (strDigits_lt a) hval
    have hmap : List.Lex (· < ·) ((strDigits a).map fun d : Nat => (106 : Int) - (d : Int))
        ((strDigits b).map fun d : Nat => (106 : Int) - (d : Int)) :=
      lex_map_inv _ _ hl.symm hdig
    have hmaplen : ((strDigits a).map fun d : Nat => (106 : Int) - (d : Int)).length
        = ((strDigits b).map fun d : Nat => (106 : Int) - (d : Int)).length := by
      rw [List.length_map, List.length_map, hl]
    rw [← hl]
    exact List.Lex.cons (lex_append_of_length_eq _ _ _ _ hmaplen hmap)

theorem encLt_irrefl (l : List Int) : ¬ encLt l l := fun h =>
  (List.Lex.isAsymm (· < ·)).asymm l l h h

theorem encLt_asymm {l m : List Int} (h : encLt l m) : ¬ encLt m l := fun h' =>
  (List.Lex.isAsymm (· < ·)).asymm l m h h'

/-- The key ordering produced by `enc` is the exact reverse of the numeric
ordering: `enc a` sorts (strictly) before `enc b` iff `b < a`. -/
theorem enc_lt_iff (a b : Nat) : encLt (enc a) (enc b) ↔ b < a := by
  constructor
  · intro h
    rcases lt_trichotomy b a with hba | rfl | hab
    · exact hba
    · exact absurd h (encLt_irrefl _)
    · exact absurd h (encLt_asymm (encLt_of_lt hab))
  · exact encLt_of_lt

theorem enc_injective {a b : Nat} (h : enc a = enc b) : a = b := by
  rcases lt_trichotomy a b with hab | rfl | hba
  · have := encLt_of_lt hab
    rw [h] at this
    exact absurd this (encLt_irrefl _)
  · rfl
  · have := encLt_of_lt hba
    rw [h] at this
    exact absurd this (encLt_irrefl _)

/-- Semantics of the archive range deletion: listing strictly after
`enc(upto_n + 1)` and deleting what is listed keeps exactly the keys with
`n > upto_n` (and for `upto_n + 1 < 0`, where `enc` raises in the background
thread, nothing is deleted — which is the same set, as every key is `≥ 0`). -/
theorem removeObjects_eq (uptoN : Int) (archive : List Nat) :
    removeObjects uptoN archive
      = archive.filter fun m : Nat => decide (uptoN < (m : Int)) := by
  unfold removeObjects
  by_cases h : 0 ≤ uptoN + 1
  · rw [if_pos h]
    refine List.filter_congr fun m _ => ?_
    rw [decide_eq_decide, enc_lt_iff, Int.lt_toNat]
    omega
  · rw [if_neg h]
    refine (List.filter_eq_self.mpr fun m _ => ?_).symm
    rw [decide_eq_true_eq]
    omega

/-- C2: `enc` is injective, and its output ordering is the exact reverse of
numeric ordering: `enc a` sorts lexicographically strictly before `enc b`
iff `a > b`, for all non-negative integers `a`, `b`. -/
theorem enc_injective_and_reverse_order :
    (∀ a b : Nat, enc a = enc b → a = b)
    ∧ ∀ a b : Nat, encLt (enc a) (enc b) ↔ a > b :=
  ⟨fun _ _ h => enc_injective h, fun a b => enc_lt_iff a b⟩

/-- Witness for C2 at concrete inputs: `enc 7` sorts before `enc 3`, and
injectivity applied at `3, 3`. -/
theorem enc_injective_and_reverse_order_witness :
    encLt (enc 7) (enc 3) ∧ (3 : Nat) = 3 :=
  ⟨(enc_injective_and_reverse_order.2 7 3).mpr (by decide),
    enc_injective_and_reverse_order.1 3 3 rfl⟩

/-- C3 counterexample: with `start_after = enc(5)` the key `enc 5` itself is
NOT strictly after `enc 5`, so the listing omits `n = 5` even though
`5 ≤ 5`: "exactly the keys for `n ≤ threshold`" fails at `threshold = 5`. -/
theorem start_after_not_le_threshold :
    ¬ (encLt (enc 5) (enc 5) ↔ (5 : Nat) ≤ 5) := fun h =>
  encLt_irrefl (enc 5) (h.mpr (le_refl 5))

/-- C3 amended: a sorted listing restricted to keys strictly after
`enc threshold` contains exactly the keys `enc n` with `n < threshold`
(strict); accordingly `_remove_objects` passes `enc(upto_n + 1)` as
`start_after`, which selects exactly the keys with `n ≤ upto_n`. -/
theorem start_after_selects_strictly_below (T : Nat) :
    (∀ n : Nat, encLt (enc T) (enc n) ↔ n < T)
    ∧ (∀ n : Nat, encLt (enc (T + 1)) (enc n) ↔ n ≤ T) := by
  refine ⟨fun n => enc_lt_iff T n, fun n => ?_⟩
  rw [enc_lt_iff]
  omega

/-- C1 counterexample: fresh key, `capacity = 2`, `refill = 60`, three calls
at the same instant.  The third call is rejected; the claim says the debited
balance (`-1/2`) is persisted, but the stored row still holds the balance
`0` that the second call persisted (every quantity here is exactly
representable in binary floating point, so Python computes the same). -/
theorem authorize_rejected_charge_not_persisted :
    (authorize (some (authorize (some (authorize none 2 60 0).2) 2 60 0).2)
        2 60 0).1 = false
    ∧ (authorize (some (authorize (some (authorize none 2 60 0).2) 2 60 0).2)
        2 60 0).2.tokens = 0
    ∧ (authorize (some (authorize (some (authorize none 2 60 0).2) 2 60 0).2)
        2 60 0).2.tokens ≠ -(1 / 2 : ℚ) := by
  norm_num [authorize, refill]

/-- C1 amended: when the post-refill post-debit balance is negative, the
call returns `false` and nothing is persisted: the stored row keeps exactly
its prior state (for a key created by this very call, the freshly inserted
defaults `tokens = 1.0, updated = now`), because `obj.save()` is only
reached on the authorized path. -/
theorem authorize_rejected_row_unchanged (capacity r tnow : ℚ) :
    (∀ b : Bucket, refill b r tnow - 1 / capacity < 0 →
      authorize (some b) capacity r tnow = (false, b))
    ∧ ((1 : ℚ) - 1 / capacity < 0 →
      authorize none capacity r tnow = (false, { tokens := 1, updated := tnow })) := by
  constructor
  · intro b h
    simp only [authorize, Option.getD_some]
    rw [if_pos h]
  · intro h
    simp only [authorize, Option.getD_none]
    rw [if_pos h]

/-- Witness for C1's amended theorem: a stored row with balance `0` at
`capacity = 2` is rejected and left unchanged. -/
theorem authorize_rejected_row_unchanged_witness :
    authorize (some { tokens := 0, updated := 0 }) 2 60 0
      = (false, { tokens := 0, updated := 0 }) :=
  (authorize_rejected_row_unchanged 2 60 0).1 { tokens := 0, updated := 0 }
    (by norm_num [refill])

/-- C5: for every check with an in-flight `last_start` and
`now ≥ last_start + grace`, `get_status` reports `down`; the rule fires
before any other (including the sticky reporting of the stored statuses
`new`, `paused`, `down`, as the witness's `paused` check shows). -/
theorem overdue_start_reports_down (cronNext : Int → Int) (c : Check)
    (withStarted : Bool) (tnow ls : Int) (hls : c.lastStart = some ls)
    (h : tnow ≥ ls + c.grace) :
    get_status cronNext c withStarted tnow = .ok St.down := by
  unfold get_status
  rw [hls]
  simp [h]

/-- Witness for C5: a `paused` check whose start ran past its grace is
reported `down`, not `paused`. -/
theorem overdue_start_reports_down_witness :
    get_status (fun t => t)
      { kind := .simple
        timeout := 60
        grace := 30
        manualResume := false
        nPings := 1
        lastPing := some 0
        lastStart := some 0
        lastDuration := none
        alertAfter := none
        status := St.paused } true 30 = .ok St.down :=
  overdue_start_reports_down (fun t => t) _ true 30 0 rfl (by norm_num)

/-- C7: `send_alerts` dispatches no notifications for a `new→up` or
`paused→up` flip, and for any flip whose new status is neither `up` nor
`down` it dies with an exception (a fatal internal error) instead of
silently ignoring the flip. -/
theorem send_alerts_skip_and_fatal :
    (∀ (created : Int) (old : St) (channels : List ChannelRec)
        (notifyOutcome : ChannelRec → String), old = .new ∨ old = .paused →
        send_alerts { created := created, oldStatus := old, newStatus := .up }
          channels notifyOutcome = .ok [])
    ∧ (∀ (f : FlipRec) (channels : List ChannelRec)
        (notifyOutcome : ChannelRec → String),
        f.newStatus ≠ .up → f.newStatus ≠ .down →
        send_alerts f channels notifyOutcome = .error ()) := by
  constructor
  · intro created old channels notifyOutcome hold
    unfold send_alerts
    rcases hold with rfl | rfl <;> simp
  · intro f channels notifyOutcome h1 h2
    unfold send_alerts
    rw [if_neg fun hA => h1 hA.1, if_pos fun hud => hud.elim h1 h2]

/-- Witness for C7: a concrete `new→up` flip yields no outcomes, and a
concrete flip into `grace` raises. -/
theorem send_alerts_skip_and_fatal_witness :
    send_alerts { created := 0, oldStatus := St.new, newStatus := St.up } []
        (fun _ => "") = .ok []
    ∧ send_alerts { created := 0, oldStatus := St.up, newStatus := St.grace } []
        (fun _ => "") = .error () :=
  ⟨send_alerts_skip_and_fatal.1 0 St.new [] (fun _ => "") (Or.inl rfl),
    send_alerts_skip_and_fatal.2 { created := 0, oldStatus := St.up, newStatus := St.grace }
      [] (fun _ => "") (by decide) (by decide)⟩

/-- C8: on a transport failure, a permanent failure sets the channel's
`disabled` to `true` while a transient one leaves `disabled` unchanged; in
both cases the message lands as the Notification's `error` and the
channel's `last_error` (with `last_notify` set), through an update that
names exactly `last_notify`/`last_error`/`disabled` and leaves every other
channel column (kind, value, emailVerified) untouched. -/
theorem notify_failure_handling (ch : ChannelRec) (st : St) (tnow : Int)
    (msg : String) (perm : Bool) :
    ∃ u : ChannelUpdate,
      (notify ch st false (.err msg perm) tnow).channelUpdate = some u
      ∧ u.disabled = (if perm then some true else ch.disabled)
      ∧ (notify ch st false (.err msg perm) tnow).notification
          = some { checkStatus := st, error := msg }
      ∧ u.lastError = msg ∧ u.lastNotify = tnow
      ∧ (applyChannelUpdate ch u).kind = ch.kind
      ∧ (applyChannelUpdate ch u).value = ch.value
      ∧ (applyChannelUpdate ch u).emailVerified = ch.emailVerified := by
  refine ⟨{ lastNotify := tnow
            lastError := msg
            disabled := if perm then some true else ch.disabled },
      ?_, rfl, ?_, rfl, rfl, rfl, rfl, rfl⟩
  · simp [notify]
  · simp [notify]

/-- For a success or fail action, the `else` branch of `Check.ping` sets
`last_ping`, clears `last_start` (recording the duration when one was
running), ends with `status = new_status`, and yields a flip exactly when
the stored status differed. -/
theorem applyAction_run (c : Check) (a : Action) (t : Int)
    (ha : a = .success ∨ a = .fail) :
    applyAction c a t
      = ({ c with
            lastPing := some t
            lastStart := none
            lastDuration :=
              match c.lastStart with
              | some ls => some (t - ls)
              | none => none
            status := if a = .fail then St.down else St.up },
          if c.status = (if a = .fail then St.down else St.up) then none
          else some
            { created := t
              oldStatus := c.status
              newStatus := if a = .fail then St.down else St.up }) := by
  rcases ha with rfl | rfl
  · unfold applyAction
    rcases hls : c.lastStart with _ | ls <;>
      by_cases hst : c.status = St.up <;>
        simp [hls, hst]
  · unfold applyAction
    rcases hls : c.lastStart with _ | ls <;>
      by_cases hst : c.status = St.down <;>
        simp [hls, hst]

/-- No branch of the ping action block touches the ping counter. -/
theorem applyAction_nPings (c : Check) (a : Action) (t : Int) :
    ((applyAction c a t).1).nPings = c.nPings := by
  unfold applyAction
  cases a <;>
    rcases hls : c.lastStart with _ | ls <;>
      simp [hls, apply_ite (fun z : Check × Option FlipRec => z.1.nPings)]

/-- `going_down_after` only raises when the check claims status `up`
without ever having been pinged; otherwise it returns a value. -/
theorem going_down_after_ok (cronNext : Int → Int) (c : Check)
    (h : c.status = .up → c.lastPing ≠ none) :
    ∃ v, going_down_after cronNext c = .ok v := by
  unfold going_down_after get_grace_start
  by_cases hs : c.status = .up
  · rcases hlp : c.lastPing with _ | lp
    · exact absurd hlp (h hs)
    · cases hk : c.kind <;>
        simp [hk, hs, hlp] <;>
        (repeat' split) <;> first | exact ⟨_, rfl⟩ | simp_all
  · simp [hs]
    (repeat' split) <;> first | exact ⟨_, rfl⟩ | simp_all

/-- Inversion for a successful `ping` call: the returned pieces in terms of
the action block's results. -/
theorem ping_inversion (cronNext : Int → Int) (s3 : Bool) (limit : Nat)
    (db : DB) (a : Action) (bodyLen : Nat) (t : Int) (out : PingOutcome)
    (h : ping cronNext s3 limit db a bodyLen t = .ok out) :
    ∃ (aa : Option Int) (p : PingRec),
      going_down_after cronNext
          (applyAction db.check (effectiveAction db.check a) t).1 = .ok aa
      ∧ out.flip = (applyAction db.check (effectiveAction db.check a) t).2
      ∧ out.db.check
          = { (applyAction db.check (effectiveAction db.check a) t).1 with
              alertAfter := aa
              nPings :=
                ((applyAction db.check (effectiveAction db.check a) t).1).nPings + 1 }
      ∧ out.events
          = (Option.map Event.saveFlip out.flip).toList
            ++ [Event.saveCheck
                  { (applyAction db.check (effectiveAction db.check a) t).1 with
                    alertAfter := aa
                    nPings :=
                      ((applyAction db.check (effectiveAction db.check a) t).1).nPings + 1 },
                Event.savePing p]
      ∧ out.didPrune
          = decide ((((applyAction db.check (effectiveAction db.check a) t).1).nPings + 1)
              % 100 = 0) := by
  simp only [ping] at h
  cases hg : going_down_after cronNext
      (applyAction db.check (effectiveAction db.check a) t).1 with
  | error e => rw [hg] at h; exact absurd h (by simp)
  | ok aa =>
      rw [hg] at h
      simp only [Except.ok.injEq] at h
      subst h
      refine ⟨aa, _, rfl, rfl, ?_, rfl, rfl⟩
      show (if _ then prune s3 limit _ else _).check = _
      split <;> rfl

/-- C4: for a success or fail ping (on a check that is not in the
`paused`-with-`manual_resume` state, where ingestion is forced to ignore),
the run succeeds, and: a Flip row is created iff the computed new status
differs from the stored status; the Flip's `created` equals the ping's
`last_ping` timestamp and its old/new statuses are the prior and new ones;
the Flip save precedes the check-row save (whose stored status is already
the new status) in the write order; and a consecutive ping yielding the
same resulting status never creates a Flip. -/
theorem flip_iff_status_change (cronNext : Int → Int) (s3 : Bool)
    (limit : Nat) (db : DB) (a : Action) (bodyLen : Nat) (tnow : Int)
    (ha : a = .success ∨ a = .fail)
    (hpm : ¬ (db.check.status = .paused ∧ db.check.manualResume)) :
    (∃ out, ping cronNext s3 limit db a bodyLen tnow = .ok out)
    ∧ ∀ out : PingOutcome, ping cronNext s3 limit db a bodyLen tnow = .ok out →
        (out.flip ≠ none ↔ (if a = .fail then St.down else St.up) ≠ db.check.status)
        ∧ out.db.check.status = (if a = .fail then St.down else St.up)
        ∧ out.db.check.lastPing = some tnow
        ∧ (∀ f, out.flip = some f →
            f.created = tnow
            ∧ f.oldStatus = db.check.status
            ∧ f.newStatus = (if a = .fail then St.down else St.up)
            ∧ ∃ c' p, out.events
                  = [Event.saveFlip f, Event.saveCheck c', Event.savePing p]
                ∧ c'.status = f.newStatus)
        ∧ ∀ (bodyLen₂ : Nat) (t₂ : Int) (out₂ : PingOutcome),
            ping cronNext s3 limit out.db a bodyLen₂ t₂ = .ok out₂ →
            out₂.flip = none := by
  have heff : effectiveAction db.check a = a := by
    unfold effectiveAction
    rw [if_neg hpm]
  have har := applyAction_run db.check a tnow ha
  have hns : (if a = .fail then St.down else St.up) ≠ St.paused := by
    rcases ha with rfl | rfl <;> simp
  constructor
  · obtain ⟨aa, haa⟩ := going_down_after_ok cronNext (applyAction db.check a tnow).1
      (fun _ => by rw [har]; simp)
    cases hres : ping cronNext s3 limit db a bodyLen tnow with
    | ok out => exact ⟨out, rfl⟩
    | error e =>
        exfalso
        simp only [ping, heff] at hres
        rw [haa] at hres
        simp at hres
  · intro out hout
    obtain ⟨aa, p, haa, hflip, hcheck, hevents, hdp⟩ :=
      ping_inversion cronNext s3 limit db a bodyLen tnow out hout
    rw [heff] at hflip hcheck hevents
    have hstat : out.db.check.status = (if a = .fail then St.down else St.up) := by
      rw [hcheck, har]
    have hlp : out.db.check.lastPing = some tnow := by
      rw [hcheck, har]
    refine ⟨?_, hstat, hlp, ?_, ?_⟩
    · rw [hflip, har]
      by_cases hc : db.check.status = (if a = .fail then St.down else St.up)
      · simp [hc]
      · simp only [if_neg hc]
        constructor
        · intro _
          exact fun he => hc he.symm
        · intro _
          simp
    · intro f hf
      rw [hflip, har] at hf
      by_cases hc : db.check.status = (if a = .fail then St.down else St.up)
      · rw [if_pos hc] at hf
        exact absurd hf (by simp)
      · rw [if_neg hc] at hf
        have hf' := Option.some.inj hf
        refine ⟨?_, ?_, ?_, ?_⟩
        · rw [← hf']
        · rw [← hf']
        · rw [← hf']
        · refine ⟨{ (applyAction db.check a tnow).1 with
              alertAfter := aa
              nPings := (applyAction db.check a tnow).1.nPings + 1 }, p, ?_, ?_⟩
          · rw [hevents, hflip, har, if_neg hc, hf']
            rfl
          · rw [← hf', har]
    · intro b2 t2 out2 hout2
      obtain ⟨aa2, p2, _, hflip2, _, _, _⟩ :=
        ping_inversion cronNext s3 limit out.db a b2 t2 out2 hout2
      have heff2 : effectiveAction out.db.check a = a := by
        unfold effectiveAction
        rw [if_neg]
        rintro ⟨hp, _⟩
        rw [hstat] at hp
        exact hns hp
      rw [heff2] at hflip2
      have har2 := applyAction_run out.db.check a t2 ha
      rw [hflip2, har2, if_pos hstat]

/-- Witness for C4: a first success ping on a fresh (`new`) check succeeds. -/
theorem flip_iff_status_change_witness :
    ∃ out, ping (fun t => t + 60) false 100
        { check :=
            { kind := .simple
              timeout := 60
              grace := 30
              manualResume := false
              nPings := 0
              lastPing := none
              lastStart := none
              lastDuration := none
              alertAfter := none
              status := St.new }
          pings := []
          flips := []
          notifications := []
          archive := [] } Action.success 0 5 = .ok out :=
  (flip_iff_status_change (fun t => t + 60) false 100 _ .success 0 5
    (Or.inl rfl) (by decide)).1

/-- C6: every ping whose post-increment sequence number is divisible by 100
triggers pruning, and only those; pruning uses the threshold
`T = n_pings - ping_log_limit`, keeps exactly the local ping rows and the
archived entries with `n > T` (removing those with `n ≤ T`), and deletes
exactly the Notification rows created before the oldest remaining ping. -/
theorem prune_trigger_and_exactness :
    (∀ (cronNext : Int → Int) (s3 : Bool) (limit : Nat) (db : DB) (a : Action)
        (bodyLen : Nat) (tnow : Int) (out : PingOutcome),
        ping cronNext s3 limit db a bodyLen tnow = .ok out →
        (out.didPrune = true ↔ (db.check.nPings + 1) % 100 = 0))
    ∧ ∀ (limit : Nat) (db : DB),
        (prune true limit db).pings
            = db.pings.filter
                (fun pr => decide ((db.check.nPings : Int) - (limit : Int) < (pr.n : Int)))
          ∧ (prune true limit db).archive
            = db.archive.filter
                (fun m : Nat => decide ((db.check.nPings : Int) - (limit : Int) < (m : Int)))
          ∧ ∀ p0 rest, (prune true limit db).pings = p0 :: rest →
              (prune true limit db).notifications
                = db.notifications.filter (fun ts => decide (¬ ts < p0.created)) := by
  constructor
  · intro cronNext s3 limit db a bodyLen tnow out hout
    obtain ⟨aa, p, _, _, _, _, hdp⟩ :=
      ping_inversion cronNext s3 limit db a bodyLen tnow out hout
    rw [hdp, applyAction_nPings]
    simp
  · intro limit db
    refine ⟨?_, ?_, ?_⟩
    · show db.pings.filter _ = db.pings.filter _
      refine List.filter_congr fun pr _ => ?_
      rw [decide_eq_decide]
      omega
    · show removeObjects ((db.check.nPings : Int) - (limit : Int)) db.archive = _
      rw [removeObjects_eq]
    · intro p0 rest h
      have hh : ((prune true limit db).pings).head? = some p0 := by rw [h]; rfl
      show (match ((prune true limit db).pings).head? with
        | some pr => db.notifications.filter fun ts => decide (¬ ts < pr.created)
        | none => db.notifications) = _
      rw [hh]

/-- Witness for C6: check at 100 pings, retention 100 (threshold 0); the
remaining ping `n = 1, created = 10` survives and the notification at 5 is
deleted while the one at 15 is kept. -/
theorem prune_trigger_and_exactness_witness :
    (prune true 100
        { check :=
            { kind := .simple
              timeout := 60
              grace := 30
              manualResume := false
              nPings := 100
              lastPing := some 10
              lastStart := none
              lastDuration := none
              alertAfter := none
              status := St.up }
          pings := [{ n := 1, created := 10, kind := .success,
                      objectSize := none, bodyRaw := some 0 }]
          flips := []
          notifications := [5, 15]
          archive := [] }).notifications = [15] :=
  (prune_trigger_and_exactness.2 100 _).2.2
    { n := 1, created := 10, kind := .success, objectSize := none, bodyRaw := some 0 }
    [] (by rfl) |>.trans (by rfl)

/-- C10: when pruning removes every remaining Ping row, the
`Ping.DoesNotExist` branch is taken and the check's Notification rows are
left entirely untouched. -/
theorem prune_no_pings_left_keeps_notifications (s3 : Bool) (limit : Nat)
    (db : DB) (h : (prune s3 limit db).pings = []) :
    (prune s3 limit db).notifications = db.notifications := by
  have hh : ((prune s3 limit db).pings).head? = none := by rw [h]; rfl
  show (match ((prune s3 limit db).pings).head? with
    | some pr => db.notifications.filter fun ts => decide (¬ ts < pr.created)
    | none => db.notifications) = db.notifications
  rw [hh]

/-- Witness for C10: a prune that deletes the only ping (threshold 1 ≥ n=1)
leaves the notification list `[3]` untouched. -/
theorem prune_no_pings_left_keeps_notifications_witness :
    (prune false 0
        { check :=
            { kind := .simple
              timeout := 60
              grace := 30
              manualResume := false
              nPings := 1
              lastPing := some 7
              lastStart := none
              lastDuration := none
              alertAfter := none
              status := St.up }
          pings := [{ n := 1, created := 7, kind := .success,
                      objectSize := none, bodyRaw := some 0 }]
          flips := []
          notifications := [3]
          archive := [] }).notifications = [3] :=
  prune_no_pings_left_keeps_notifications false 0 _ (by rfl)

/-! ### Token-bucket arithmetic for same-instant call sequences

These are facts about the exact-rational model; the claim theorem below
instantiates them only at power-of-two capacities, where every value on the
evaluated path is an exactly-representable dyadic and the IEEE-double
program computes the same numbers (see the caveat on `authorize`). -/

theorem authorize_fresh (c : Nat) (hc : 1 ≤ c) (r t : ℚ) :
    authorize none (c : ℚ) r t
      = (true, { tokens := 1 - 1 / (c : ℚ), updated := t }) := by
  have hc0 : (0 : ℚ) < (c : ℚ) := by exact_mod_cast hc
  have hle : (1 : ℚ) / (c : ℚ) ≤ 1 := by
    rw [div_le_one hc0]
    exact_mod_cast hc
  simp only [authorize, Option.getD_none]
  rw [if_neg (show ¬((1 : ℚ) - 1 / (c : ℚ) < 0) by linarith)]

theorem authorize_step (c : Nat) (hc : 1 ≤ c) (r t : ℚ) (j : Nat)
    (hj : j + 1 ≤ c) :
    authorize (some { tokens := 1 - (j : ℚ) / (c : ℚ), updated := t }) (c : ℚ) r t
      = (true, { tokens := 1 - ((j : ℚ) + 1) / (c : ℚ), updated := t }) := by
  have hc0 : (0 : ℚ) < (c : ℚ) := by exact_mod_cast Nat.lt_of_lt_of_le Nat.zero_lt_one hc
  have hrefill : refill { tokens := 1 - (j : ℚ) / (c : ℚ), updated := t } r t
      = 1 - (j : ℚ) / (c : ℚ) := by
    unfold refill
    rw [sub_self, zero_div, add_zero]
    refine min_eq_right ?_
    have : (0 : ℚ) ≤ (j : ℚ) / (c : ℚ) := div_nonneg (by positivity) hc0.le
    linarith
  have heq : 1 - (j : ℚ) / (c : ℚ) - 1 / (c : ℚ) = 1 - ((j : ℚ) + 1) / (c : ℚ) := by
    rw [← div_add_div_same]
    ring
  have hle : ((j : ℚ) + 1) / (c : ℚ) ≤ 1 := by
    rw [div_le_one hc0]
    exact_mod_cast hj
  simp only [authorize, Option.getD_some, hrefill]
  rw [heq, if_neg (not_lt.mpr (by linarith))]

theorem authorize_empty_rejected (c : Nat) (hc : 1 ≤ c) (r t : ℚ) :
    authorize (some { tokens := 0, updated := t }) (c : ℚ) r t
      = (false, { tokens := 0, updated := t }) := by
  have hc0 : (0 : ℚ) < (c : ℚ) := by exact_mod_cast hc
  have hrefill : refill { tokens := 0, updated := t } r t = 0 := by
    unfold refill
    rw [sub_self, zero_div, add_zero]
    exact min_eq_right (by norm_num)
  have hpos : (0 : ℚ) < 1 / (c : ℚ) := by positivity
  simp only [authorize, Option.getD_some, hrefill]
  rw [if_pos (by linarith)]

theorem repeatAuth_invariant (c : Nat) (hc : 1 ≤ c) (r t : ℚ) :
    ∀ (k j : Nat), j + k ≤ c →
      repeatAuth (c : ℚ) r t k (some { tokens := 1 - (j : ℚ) / (c : ℚ), updated := t })
        = (List.replicate k true,
           some { tokens := 1 - (((j + k : Nat)) : ℚ) / (c : ℚ), updated := t })
  | 0, j, hjk => by simp [repeatAuth]
  | k + 1, j, hjk => by
      have step := authorize_step c hc r t j (by omega)
      have ih := repeatAuth_invariant c hc r t k (j + 1) (by omega)
      have hcast : (((j + 1 : Nat)) : ℚ) = (j : ℚ) + 1 := by push_cast; ring
      rw [hcast] at ih
      simp only [repeatAuth]
      rw [step]
      show ((true : Bool) :: (repeatAuth (c : ℚ) r t k
            (some { tokens := 1 - ((j : ℚ) + 1) / (c : ℚ), updated := t })).1,
          (repeatAuth (c : ℚ) r t k
            (some { tokens := 1 - ((j : ℚ) + 1) / (c : ℚ), updated := t })).2)
        = (List.replicate (k + 1) true,
           some { tokens := 1 - (((j + (k + 1) : Nat)) : ℚ) / (c : ℚ), updated := t })
      have harg : (((j + 1 + k : Nat)) : ℚ) = (((j + (k + 1) : Nat)) : ℚ) := by
        push_cast
        ring
      rw [ih, List.replicate_succ, harg]

theorem repeatAuth_add (cap r t : ℚ) (m n : Nat) :
    ∀ store : Option Bucket,
      repeatAuth cap r t (m + n) store
        = ((repeatAuth cap r t m store).1
              ++ (repeatAuth cap r t n (repeatAuth cap r t m store).2).1,
           (repeatAuth cap r t n (repeatAuth cap r t m store).2).2) := by
  induction m with
  | zero => intro store; simp [repeatAuth]
  | succ m ih =>
      intro store
      rw [show m + 1 + n = (m + n) + 1 from by omega]
      simp only [repeatAuth]
      rw [ih]
      rfl

theorem repeatAuth_fresh (c : Nat) (hc : 1 ≤ c) (r t : ℚ) :
    repeatAuth (c : ℚ) r t c none
      = (List.replicate c true, some { tokens := 0, updated := t }) := by
  obtain ⟨d, rfl⟩ : ∃ d, c = d + 1 := ⟨c - 1, by omega⟩
  have hf := authorize_fresh (d + 1) hc r t
  have h2 := repeatAuth_invariant (d + 1) hc r t d 1 (by omega)
  rw [Nat.cast_one] at h2
  simp only [repeatAuth]
  rw [hf]
  show ((true : Bool) :: (repeatAuth ((d + 1 : Nat) : ℚ) r t d
        (some { tokens := 1 - 1 / ((d + 1 : Nat) : ℚ), updated := t })).1,
      (repeatAuth ((d + 1 : Nat) : ℚ) r t d
        (some { tokens := 1 - 1 / ((d + 1 : Nat) : ℚ), updated := t })).2)
    = (List.replicate (d + 1) true, some { tokens := 0, updated := t })
  have hzero : 1 - (((1 + d : Nat)) : ℚ) / (((d + 1 : Nat)) : ℚ) = 0 := by
    have hne : (((d + 1 : Nat)) : ℚ) ≠ 0 := Nat.cast_ne_zero.mpr (by omega)
    rw [show (1 + d : Nat) = (d + 1 : Nat) from by omega, div_self hne]
    ring
  rw [h2, List.replicate_succ, hzero]

theorem repeatAuth_reject (c : Nat) (hc : 1 ≤ c) (r t : ℚ) :
    repeatAuth (c : ℚ) r t (c + 1) none
      = (List.replicate c true ++ [false], some { tokens := 0, updated := t }) := by
  rw [repeatAuth_add (c : ℚ) r t c 1 none, repeatAuth_fresh c hc r t]
  show (List.replicate c true
        ++ (repeatAuth (c : ℚ) r t 1 (some { tokens := 0, updated := t })).1,
      (repeatAuth (c : ℚ) r t 1 (some { tokens := 0, updated := t })).2)
    = (List.replicate c true ++ [false], some { tokens := 0, updated := t })
  have hrej := authorize_empty_rejected c hc r t
  simp only [repeatAuth]
  rw [hrej]

/-- C9 counterexample: capacity 2, refill period 60 s; a fresh key permits
THREE authorize calls at `t = 0, 30, 45` — all within one refill period —
because intervening refill adds tokens back (every quantity is an exact
binary-float value, so Python computes the same).  "Exactly `capacity`
calls within one refill period before rejecting" is therefore false. -/
theorem fresh_key_over_capacity_within_period :
    (authorize none 2 60 0).1 = true
    ∧ (authorize (some (authorize none 2 60 0).2) 2 60 30).1 = true
    ∧ (authorize (some (authorize (some (authorize none 2 60 0).2) 2 60 30).2)
        2 60 45).1 = true
    ∧ (45 : ℚ) - 0 < 60 := by
  norm_num [authorize, refill]

/-- C9 amended: for a power-of-two capacity `2^k` (`k ≤ 52`) — where
`1/capacity` and every intermediate balance is a dyadic rational of at most
53 significant bits, so the IEEE-double program computes exactly these
values — a fresh key permits exactly `capacity` back-to-back (same-instant)
calls before rejecting.  (For other capacities the float program can reject
earlier: at capacity 20 the accumulated `1.0/20` rounding rejects the 20th
call; and above `2^52` the debit is lost against `1.0`.  With idle time
between calls inside the period, more than `capacity` calls can be
permitted, as the counterexample shows.)  The refill computed at the next
call after a full idle refill period restores the balance to exactly 1.0,
capped at 1.0 for any longer idle time; this holds in floats as well, since
IEEE-correct rounding cannot drop a sum whose exact value is `≥ 1` below
the representable `1.0`, and `min(1.0, ·)` then caps it. -/
theorem token_bucket_capacity_and_idle_refill (k : Nat) (_hk : k ≤ 52)
    (r t : ℚ) :
    (repeatAuth ((2 ^ k : Nat) : ℚ) r t (2 ^ k) none).1
        = List.replicate (2 ^ k) true
    ∧ (repeatAuth ((2 ^ k : Nat) : ℚ) r t (2 ^ k + 1) none).1
        = List.replicate (2 ^ k) true ++ [false]
    ∧ (∀ b : Bucket, 0 ≤ b.tokens → 0 < r → ∀ tnow : ℚ, r ≤ tnow - b.updated →
        refill b r tnow = 1)
    ∧ ∀ (b : Bucket) (r' tnow : ℚ), refill b r' tnow ≤ 1 := by
  have hc : 1 ≤ 2 ^ k := Nat.one_le_pow k 2 (by norm_num)
  refine ⟨by rw [repeatAuth_fresh (2 ^ k) hc r t],
    by rw [repeatAuth_reject (2 ^ k) hc r t], ?_, ?_⟩
  · intro b hb hr tnow ht
    unfold refill
    refine min_eq_left ?_
    have h1 : (1 : ℚ) ≤ (tnow - b.updated) / r := (one_le_div hr).mpr ht
    linarith
  · intro b r' tnow
    exact min_le_left _ _

/-- Witness for C9's amended theorem at capacity `2^1 = 2`: two same-instant
calls succeed, the third is rejected, and a full idle period refills to 1. -/
theorem token_bucket_capacity_and_idle_refill_witness :
    (repeatAuth ((2 ^ 1 : Nat) : ℚ) 60 0 (2 ^ 1) none).1 = [true, true]
    ∧ (repeatAuth ((2 ^ 1 : Nat) : ℚ) 60 0 (2 ^ 1 + 1) none).1
        = [true, true, false]
    ∧ refill { tokens := 0, updated := 0 } 60 60 = 1 :=
  ⟨(token_bucket_capacity_and_idle_refill 1 (by norm_num) 60 0).1,
    (token_bucket_capacity_and_idle_refill 1 (by norm_num) 60 0).2.1,
    (token_bucket_capacity_and_idle_refill 1 (by norm_num) 60 0).2.2.1
      { tokens := 0, updated := 0 } (by norm_num) (by norm_num) 60 (by norm_num)⟩

end HC
